import Mathlib

/-!
Verification of the Poseidon sponge / Merkle path arithmetization.

The definitions below are shallow embeddings of the Rust sources:
* `src/src/chips/poseidon_chip.rs`   (permutation engine and sponge chip)
* `src/src/chips/merkle_chip.rs`     (Merkle path chip)
* `src/src/circuits/poseidon_circuit.rs` and `merkle_circuit.rs` (composition)
* `src/tests/utils/poseidon_hash.rs` (pure reference implementation)

Field elements are modelled by an arbitrary commutative ring `F`
(instantiated with `ZMod p` for concrete evaluations); a sponge state of
width `W` is a function `Fin W → F`; the round-constant table is a list of
such rows.
-/

namespace CircuitSamples

section PoseidonDefs

variable {F : Type} [CommRing F] {W : ℕ}

/-- The value-level S-box closure `pbox` of `PoseidonChip::permutation`:
`|x| x * x * x * x * x`. -/
def pbox (x : F) : F := x * x * x * x * x

/-- The S-box of the pure reference implementation
(`tests/utils/poseidon_hash.rs`): `x.cube() * x.square()`. -/
def sboxRef (x : F) : F := (x * x * x) * (x * x)

/-- Row `i` of the MDS mixing step: `sum_j v[j] * mds[i][j]`
(the `mix` closure / the `apply mds` loop of the chip and the
matrix product of the reference implementation). -/
def mixRow (mds : Fin W → Fin W → F) (v : Fin W → F) (i : Fin W) : F :=
  ∑ j, v j * mds i j

/-- Round-constant row `r` of the table (`arc_paras[r]` / `S::arks()[round]`). -/
def arcAt (cs : List (Fin W → F)) (r : ℕ) : Fin W → F :=
  cs.getD r (fun _ => 0)

/-- One iteration of the round loop in `PoseidonChip::permutation`:
add the round constants, apply the S-box to every slot (full round)
or to slot 0 only (partial round), then mix through the MDS matrix. -/
def chipRound (mds : Fin W → Fin W → F) (arc : Fin W → F) (full : Bool)
    (st : Fin W → F) : Fin W → F :=
  let temp : Fin W → F := fun i => st i + arc i
  let temp2 : Fin W → F :=
    if full then fun i => pbox (temp i)
    else fun i => if (i : ℕ) = 0 then pbox (temp i) else temp i
  fun i => mixRow mds temp2 i

/-- The value computation of `PoseidonChip::permutation`: with
`half = full_round / 2` and `mid = half + partial_round`, round `r` of
`0 .. full_round + partial_round` is a full round iff
`r < half || r >= mid`, matching the selector choice in the source. -/
def chipPermutation (cs : List (Fin W → F)) (mds : Fin W → Fin W → F)
    (fr pr : ℕ) (s : Fin W → F) : Fin W → F :=
  (List.range (fr + pr)).foldl
    (fun st r => chipRound mds (arcAt cs r) (decide (r < fr / 2 ∨ fr / 2 + pr ≤ r)) st) s

/-- `full_round` of the reference implementation. -/
def fRound (cs : List (Fin W → F)) (mds : Fin W → Fin W → F) (r : ℕ)
    (st : Fin W → F) : Fin W → F :=
  fun i => ∑ j, sboxRef (st j + arcAt cs r j) * mds i j

/-- `partial_round` of the reference implementation. -/
def pRound (cs : List (Fin W → F)) (mds : Fin W → Fin W → F) (r : ℕ)
    (st : Fin W → F) : Fin W → F :=
  let mid : Fin W → F := fun j =>
    if (j : ℕ) = 0 then sboxRef (st j + arcAt cs r j) else st j + arcAt cs r j
  fun i => ∑ j, mid j * mds i j

/-- `permutation` of the reference implementation: `fr / 2` full rounds,
then `pr` partial rounds, then the remaining `fr - fr / 2` full rounds. -/
def refPermutation (cs : List (Fin W → F)) (mds : Fin W → Fin W → F)
    (fr pr : ℕ) (s : Fin W → F) : Fin W → F :=
  let half := fr / 2
  let s1 := (List.range' 0 half).foldl (fun st r => fRound cs mds r st) s
  let s2 := (List.range' half pr).foldl (fun st r => pRound cs mds r st) s1
  (List.range' (half + pr) (fr - half)).foldl (fun st r => fRound cs mds r st) s2

/-- The guarded form of `PoseidonChip::permutation`: the region closure
indexes `config.arc_paras[r]` for every round `r` (out-of-bounds aborts
construction), and converts the per-round output cells into a `WIDTH`-array
(which aborts when no round was executed and `WIDTH > 0`). -/
def permutationRun (cs : List (Fin W → F)) (mds : Fin W → Fin W → F)
    (fr pr : ℕ) (s : Fin W → F) : Option (Fin W → F) :=
  if cs.length < fr + pr then none
  else if fr + pr = 0 ∧ 0 < W then none
  else some (chipPermutation cs mds fr pr s)

/-- `PoseidonChip::load_inputs`: asserts `inputs.len() == WIDTH - 1` and
returns the state whose rate slots are `state[i] + inputs[i]` and whose
capacity slot `WIDTH - 1` is copied through unchanged. -/
def load_inputs (s : Fin W → F) (inputs : List F) : Option (Fin W → F) :=
  if inputs.length = W - 1 then
    some (fun i => if (i : ℕ) < W - 1 then s i + inputs.getD (i : ℕ) 0 else s i)
  else none

/-- The `add-inputs` gate of `PoseidonChip::configure`: for each rate slot
`idx < WIDTH - 1` the constraint `initial_state + input - output_state`,
and for the capacity slot the constraint `initial_state_rate - output_state_rate`. -/
def addInputsGate (initial input output : Fin W → F) : Prop :=
  ∀ i : Fin W,
    if (i : ℕ) < W - 1 then initial i + input i - output i = 0
    else initial i - output i = 0

/-- `initiate` / the reference hash's initial state:
`[0, ..., 0, capacity]`. -/
def initState (cap : ℕ) : Fin W → F :=
  fun i => if (i : ℕ) = W - 1 then (cap : F) else 0

/-- The absorb loop of the reference hash: add the (padded) chunk to the
first `W - 1` state slots. -/
def absorb (st : Fin W → F) (x : List F) : Fin W → F :=
  fun i => if (i : ℕ) < W - 1 then st i + x.getD (i : ℕ) 0 else st i

/-- Rust's `slice::chunks(size)`: split a list into consecutive chunks of
`size` elements (the final chunk possibly shorter). -/
def chunks (size : ℕ) : List F → List (List F)
  | [] => []
  | x :: rest =>
    if _h : size = 0 then []
    else ((x :: rest).take size) :: chunks size ((x :: rest).drop size)
termination_by xs => xs.length
decreasing_by
  simp only [List.length_drop, List.length_cons]
  omega

/-- The variable-length hash of `tests/utils/poseidon_hash.rs`: chunk the
input, append the pad vector to every chunk, absorb and permute once per
chunk, and read the digest off as `states[0..size]`. -/
def hashDigest (size : ℕ) (pad : List F) (cap : ℕ) (cs : List (Fin W → F))
    (mds : Fin W → Fin W → F) (fr pr : ℕ) (inputs : List F) : List F :=
  (List.ofFn (((chunks size inputs).map (fun c => c ++ pad)).foldl
    (fun st x => refPermutation cs mds fr pr (absorb st x))
    (initState cap))).take size

/-- Slot 0 of a state vector. -/
def stateHead (st : Fin W → F) : F := (List.ofFn st).getD 0 0

/-- Modelled from the spec: the squeeze phase as the specification sentence
describes it — after absorbing all chunks, the digest is produced "by
repeatedly permuting and reading state[0]" whenever the digest width
exceeds one field element.  No function of the repository squeezes this
way; this definition exists only to compare the claim with the code. -/
def claimedSqueezeHash (size : ℕ) (pad : List F) (cap : ℕ)
    (cs : List (Fin W → F)) (mds : Fin W → Fin W → F) (fr pr : ℕ)
    (inputs : List F) : List F :=
  (List.range size).map
    (fun k => stateHead ((fun t => refPermutation cs mds fr pr t)^[k]
      (((chunks size inputs).map (fun c => c ++ pad)).foldl
        (fun st x => refPermutation cs mds fr pr (absorb st x))
        (initState cap))))

/-- Modelled from the spec (amended wording): split the input into
`length / size` element-size chunks, pad each chunk, absorb and permute
once per chunk, and read the digest directly as the first `size` slots of
the final state. -/
def specVarHash (size : ℕ) (pad : List F) (cap : ℕ) (cs : List (Fin W → F))
    (mds : Fin W → Fin W → F) (fr pr : ℕ) (inputs : List F) : List F :=
  (List.range size).map
    (fun k => (List.ofFn ((List.range (inputs.length / size)).foldl
      (fun st k0 => refPermutation cs mds fr pr
        (absorb st ((inputs.drop (k0 * size)).take size ++ pad)))
      (initState cap))).getD k 0)

end PoseidonDefs

section MerkleDefs

variable {F : Type} [CommRing F] {I : ℕ}

/-- The `Copy_Hash` gate of `MerklePathChip::configure`, expressed on the
cells it queries: the current level's left/right/hash rows
(`p_left_v`, `p_right_v`, `p_hash_v`), the next level's left/right rows
(`left_v`, `right_v`), the copy flag of this hash row and of the next one
(`copy`, `n_copy`), and the index flag of this hash row. -/
def copyHashGate (pLeft pRight pHash nLeft nRight : Fin I → F)
    (copy nCopy index : F) : Prop :=
  nCopy * (1 - nCopy) = 0 ∧
  copy * (1 - copy) = 0 ∧
  copy * (1 - nCopy) = 0 ∧
  index * (1 - index) = 0 ∧
  (∀ i, (1 - copy) * (pHash i - (1 - index) * nLeft i - index * nRight i) = 0) ∧
  (∀ i, copy * ((1 - index) * (pLeft i - nLeft i)
      + index * (pRight i - nRight i)) = 0)

/-- The `PUB_SELECT` gate of `MerklePathChip::configure`: the index flag is
boolean, the raw copy-flag cell itself is a constraint, and the chosen-leaf
row equals left or right as selected by the index flag. -/
def pubSelectGate (leftV rightV hashV : Fin I → F) (index copy : F) : Prop :=
  index * (1 - index) = 0 ∧
  copy = 0 ∧
  ∀ i, (1 - index) * (leftV i - hashV i) + index * (rightV i - hashV i) = 0

/-- The all-zero node, used as the (never reached) list-access default. -/
def zeroNode : Fin I → F := fun _ => 0

/-- The cells assigned by `MerklePathChip::load_leaves`: rows 0 and 1 of
the value columns hold the left and right child, row 2 holds the leaf
copied in from instance rows `0..I`, the index flag at row 2 is copied
from instance row `I`, and the copy flag at row 2 is assigned zero. -/
structure LeavesRegion (F : Type) (I : ℕ) where
  valueAt : Fin I → Fin 3 → F
  idxFlagAt2 : F
  copyFlagAt2 : F

/-- `MerklePathChip::load_leaves`. -/
def load_leaves (pubCol : ℕ → F) (leftC rightC : Fin I → F) :
    LeavesRegion F I :=
  { valueAt := fun j row =>
      if (row : ℕ) = 0 then leftC j
      else if (row : ℕ) = 1 then rightC j
      else pubCol (j : ℕ)
    idxFlagAt2 := pubCol I
    copyFlagAt2 := 0 }

/-- The region assigned by `MerklePathChip::load_path`: for each column the
value at every row (rows the source never assigns are `none`). -/
structure PathRegion (F : Type) (I : ℕ) where
  valueAt : Fin I → ℕ → Option F
  copyFlagAt : ℕ → Option F
  idxFlagAt : ℕ → Option F

/-- `MerklePathChip::load_path`: asserts the four length equalities and
`n ≤ m`, lays the `m` level triples (left, right, hash) out at rows
`3i, 3i+1, 3i+2`, copies `left[m]` into both value rows `3m` and `3m+1`,
copies the index flags in from instance rows `I+i` at rows `3i-1`
(`1 ≤ i < m`) with a final zero at row `3m-1`, assigns the caller's copy
flags at the hash rows and the constant one at row `3m+2`, and returns
`left[m]` as the root. -/
def load_path (pubCol : ℕ → F) (left right hash : List (Fin I → F))
    (copy : List F) (m n : ℕ) : Option ((Fin I → F) × PathRegion F I) :=
  if m + 1 = right.length ∧ m + 1 = left.length ∧ m + 1 = copy.length
      ∧ m = hash.length ∧ n ≤ m then
    some (left.getD m zeroNode,
      { valueAt := fun j row =>
          if row / 3 < m then
            if row % 3 = 0 then some (left.getD (row / 3) zeroNode j)
            else if row % 3 = 1 then some (right.getD (row / 3) zeroNode j)
            else some (hash.getD (row / 3) zeroNode j)
          else if row = 3 * m then some (left.getD m zeroNode j)
          else if row = 3 * m + 1 then some (left.getD m zeroNode j)
          else none
        copyFlagAt := fun row =>
          if row % 3 = 2 ∧ row / 3 < m then some (copy.getD (row / 3) 0)
          else if row = 3 * m + 2 then some 1
          else none
        idxFlagAt := fun row =>
          if row % 3 = 2 ∧ 1 ≤ (row + 1) / 3 ∧ (row + 1) / 3 < m then
            some (pubCol (I + (row + 1) / 3))
          else if row = 3 * m - 1 then some 0
          else none })
  else none

/-- Which equality mechanism binds an instance row. -/
inductive PubBinding
  | copyIn
  | equalOut
deriving DecidableEq

/-- The meaning the composition layer gives to an instance row. -/
inductive PubRole
  | leafSlot (j : ℕ)
  | idxSlot (i : ℕ)
  | rootSlot (j : ℕ)
deriving DecidableEq

/-- Instance rows consumed by `load_leaves`: the leaf at rows `0..I`
(`assign_advice_from_instance`) and the level-0 index flag at row `I`. -/
def loadLeavesPubRefs (Iw : ℕ) : List (ℕ × PubRole × PubBinding) :=
  ((List.range Iw).map (fun j => (j, PubRole.leafSlot j, PubBinding.copyIn)))
    ++ [(Iw, PubRole.idxSlot 0, PubBinding.copyIn)]

/-- Instance rows consumed by `load_path`: the index flags at rows `I + i`
for `i` in `1..m` (`assign_advice_from_instance`). -/
def loadPathPubRefs (Iw m : ℕ) : List (ℕ × PubRole × PubBinding) :=
  (List.range' 1 (m - 1)).map (fun i => (Iw + i, PubRole.idxSlot i, PubBinding.copyIn))

/-- Instance rows consumed by `MerklePathChip::expose_public`: rows
`row .. row + I` bound by `constrain_instance` (direct equality). -/
def exposePublicPubRefs (row Iw : ℕ) : List (ℕ × PubRole × PubBinding) :=
  (List.range Iw).map (fun j => (row + j, PubRole.rootSlot j, PubBinding.equalOut))

/-- All instance rows consumed by `MerklePathCircuit::synthesize`, in call
order: `load_leaves`, then `load_path`, then `expose_public(root, M + I)`. -/
def merkleSynthPubRefs (Iw M : ℕ) : List (ℕ × PubRole × PubBinding) :=
  loadLeavesPubRefs Iw ++ loadPathPubRefs Iw M ++ exposePublicPubRefs (M + Iw) Iw

/-- The left-node list built by `MerklePathCircuit::synthesize`: the hash
loop pushes one node per level `i < n`, then the root loop pushes the
level-`n` node once per iteration of `n..M+1`. -/
def synthLeftNodes (lv : ℕ → Fin I → F) (n M : ℕ) : List (Fin I → F) :=
  ((List.range n).map lv) ++ ((List.range' n (M + 1 - n)).map (fun _ => lv n))

/-- The right-node list built by `MerklePathCircuit::synthesize`. -/
def synthRightNodes (rv : ℕ → Fin I → F) (n M : ℕ) : List (Fin I → F) :=
  ((List.range n).map rv) ++ ((List.range' n (M + 1 - n)).map (fun _ => rv n))

/-- The hash-node list built by `MerklePathCircuit::synthesize`: note that
the root loop `n..M+1` pushes a hash node on every iteration as well. -/
def synthHashNodes (hv : ℕ → Fin I → F) (n M : ℕ) : List (Fin I → F) :=
  ((List.range n).map hv) ++ ((List.range' n (M + 1 - n)).map (fun _ => hv n))

end MerkleDefs

section PoseidonLemmas

variable {F : Type} [CommRing F] {W : ℕ}

lemma pbox_eq_sboxRef (x : F) : pbox x = sboxRef x := by
  unfold pbox sboxRef; ring

lemma chipRound_full_eq (cs : List (Fin W → F)) (mds : Fin W → Fin W → F)
    (r : ℕ) (st : Fin W → F) :
    chipRound mds (arcAt cs r) true st = fRound cs mds r st := by
  funext i
  simp only [chipRound, fRound, mixRow, if_pos]
  exact Finset.sum_congr rfl fun j _ => by rw [pbox_eq_sboxRef]

lemma chipRound_partial_eq (cs : List (Fin W → F)) (mds : Fin W → Fin W → F)
    (r : ℕ) (st : Fin W → F) :
    chipRound mds (arcAt cs r) false st = pRound cs mds r st := by
  funext i
  simp only [chipRound, pRound, mixRow, Bool.false_eq_true, if_neg]
  exact Finset.sum_congr rfl fun j _ => by
    by_cases hj : (j : ℕ) = 0 <;> simp [hj, pbox_eq_sboxRef]

lemma chip_foldl_full (cs : List (Fin W → F)) (mds : Fin W → Fin W → F)
    (fr pr : ℕ) :
    ∀ (len a : ℕ), (∀ r, a ≤ r → r < a + len → (r < fr / 2 ∨ fr / 2 + pr ≤ r)) →
    ∀ st : Fin W → F,
      (List.range' a len).foldl
          (fun st r => chipRound mds (arcAt cs r)
            (decide (r < fr / 2 ∨ fr / 2 + pr ≤ r)) st) st
        = (List.range' a len).foldl (fun st r => fRound cs mds r st) st := by
  intro len
  induction len with
  | zero => intro a _ st; rfl
  | succ k ih =>
      intro a h st
      rw [List.range'_succ, List.foldl_cons, List.foldl_cons]
      have ha : a < fr / 2 ∨ fr / 2 + pr ≤ a := h a le_rfl (by omega)
      rw [decide_eq_true ha, chipRound_full_eq]
      exact ih (a + 1) (fun r h1 h2 => h r (by omega) (by omega)) _

lemma chip_foldl_pRounds (cs : List (Fin W → F)) (mds : Fin W → Fin W → F)
    (fr pr : ℕ) :
    ∀ (len a : ℕ), (∀ r, a ≤ r → r < a + len → ¬(r < fr / 2 ∨ fr / 2 + pr ≤ r)) →
    ∀ st : Fin W → F,
      (List.range' a len).foldl
          (fun st r => chipRound mds (arcAt cs r)
            (decide (r < fr / 2 ∨ fr / 2 + pr ≤ r)) st) st
        = (List.range' a len).foldl (fun st r => pRound cs mds r st) st := by
  intro len
  induction len with
  | zero => intro a _ st; rfl
  | succ k ih =>
      intro a h st
      rw [List.range'_succ, List.foldl_cons, List.foldl_cons]
      have ha : ¬(a < fr / 2 ∨ fr / 2 + pr ≤ a) := h a le_rfl (by omega)
      rw [decide_eq_false ha, chipRound_partial_eq]
      exact ih (a + 1) (fun r h1 h2 => h r (by omega) (by omega)) _

/-- The chip's single round loop agrees with the reference's three-phase
round structure. -/
lemma chipPermutation_eq_refPermutation (cs : List (Fin W → F))
    (mds : Fin W → Fin W → F) (fr pr : ℕ) (s : Fin W → F) :
    chipPermutation cs mds fr pr s = refPermutation cs mds fr pr s := by
  have hhalf : fr / 2 ≤ fr := Nat.div_le_self fr 2
  have h1 := List.range'_append (fr / 2) pr (fr - fr / 2) 1
  simp only [one_mul] at h1
  have h2 := List.range'_append 0 (fr / 2) (fr - fr / 2 + pr) 1
  simp only [one_mul, Nat.zero_add] at h2
  have hsplit : List.range (fr + pr)
      = List.range' 0 (fr / 2) ++ List.range' (fr / 2) pr
        ++ List.range' (fr / 2 + pr) (fr - fr / 2) := by
    rw [List.range_eq_range', List.append_assoc, h1, h2]
    congr 1
    omega
  unfold chipPermutation refPermutation
  rw [hsplit, List.foldl_append, List.foldl_append]
  rw [chip_foldl_full cs mds fr pr (fr / 2) 0 (fun r h1 h2 => by omega) s]
  rw [chip_foldl_pRounds cs mds fr pr pr (fr / 2) (fun r h1 h2 => by omega)]
  rw [chip_foldl_full cs mds fr pr (fr - fr / 2) (fr / 2 + pr) (fun r h1 h2 => by omega)]

end PoseidonLemmas

section ClaimC1

variable {F : Type} [CommRing F] {W : ℕ}

/-- C1: for every initial state vector and every configuration
(full rounds, partial rounds, MDS matrix, round-constant table), the state
returned by `PoseidonChip::permutation` holds exactly the same `W` field
elements, element for element, as the pure reference permutation
(half of the full rounds, then the partial rounds, then the remaining full
rounds, each round adding constants, applying the degree-5 S-box and mixing
through the matrix). -/
theorem c1_chip_permutation_eq_reference (cs : List (Fin W → F))
    (mds : Fin W → Fin W → F) (fr pr : ℕ) (s : Fin W → F) :
    chipPermutation cs mds fr pr s = refPermutation cs mds fr pr s :=
  chipPermutation_eq_refPermutation cs mds fr pr s

end ClaimC1

section ClaimC2

/-- C2: in any assignment satisfying the Merkle chip's constraints, at every
level `i` where the hash gate is enabled the relation
`copy[i] * (1 - copy[i+1]) = 0` holds, hence a copy-flag sequence that is 1
at some level and 0 at a later level never satisfies the constraint
system (the flags are monotone). -/
theorem c2_copy_flag_monotone {F : Type} [CommRing F] {I : ℕ}
    (pL pR pH nL nR : ℕ → Fin I → F) (copy index : ℕ → F) (M : ℕ)
    (hsat : ∀ i, i < M → copyHashGate (pL i) (pR i) (pH i) (nL i) (nR i)
      (copy i) (copy (i + 1)) (index i)) :
    (∀ i, i < M → copy i * (1 - copy (i + 1)) = 0) ∧
    (∀ i j, i ≤ j → j ≤ M → copy i = 1 → copy j = 1) := by
  constructor
  · intro i hi
    exact (hsat i hi).2.2.1
  · intro i j hij
    induction j, hij using Nat.le_induction with
    | base => intro _ hc; exact hc
    | succ k hk ih =>
        intro hkM hc
        have h1 : copy k = 1 := ih (by omega) hc
        have h2 := (hsat k (by omega)).2.2.1
        rw [h1, one_mul] at h2
        exact (sub_eq_zero.mp h2).symm

theorem c2_copy_flag_monotone_w : (0 : ZMod 5) * (1 - 1) = 0 :=
  (c2_copy_flag_monotone (I := 1) (fun _ _ => 0) (fun _ _ => 0) (fun _ _ => 0)
    (fun _ _ => 0) (fun _ _ => 0) (fun i => if i = 0 then 0 else 1)
    (fun _ => 0) 1 (by
      intro i hi
      have hz : i = 0 := by omega
      subst hz
      unfold copyHashGate
      decide)).1 0 (by omega)

end ClaimC2

section ClaimC3

/-- C3: at a level where the hash gate is enabled and the copy flag is 0, a
satisfying assignment must have, for every element position `i`,
`hash[i] = (1 - index) * left[i+1] + index * right[i+1]`: the externally
computed hash of the current pair equals the child of the next level
selected by the index flag. -/
theorem c3_hash_relation_when_copy_zero {F : Type} [CommRing F] {I : ℕ}
    (pL pR pH nL nR : Fin I → F) (copy nCopy index : F)
    (hg : copyHashGate pL pR pH nL nR copy nCopy index) (hc : copy = 0) :
    ∀ i, pH i = (1 - index) * nL i + index * nR i := by
  intro i
  have h := hg.2.2.2.2.1 i
  rw [hc] at h
  linear_combination h

theorem c3_hash_relation_when_copy_zero_w :
    (0 : ZMod 5) = (1 - 0) * 0 + 0 * 0 :=
  c3_hash_relation_when_copy_zero (I := 1) (fun _ => 0) (fun _ => 0)
    (fun _ => 0) (fun _ => 0) (fun _ => 0) 0 1 0
    (by unfold copyHashGate; decide) rfl 0

end ClaimC3

section ClaimC6

/-- C6: for every state and every chunk of `W - 1` input field elements,
the absorb step (`load_inputs` together with the `add-inputs` gate)
produces a state whose rate slot `i < W - 1` equals the old slot `i` plus
input `i`, while the capacity slot `W - 1` is passed through unchanged, and
the produced state satisfies the `add-inputs` gate (whose capacity
constraint equates input and output capacity with no input added). -/
theorem c6_absorb_adds_rate_passes_capacity {F : Type} [CommRing F] {W : ℕ}
    (s : Fin W → F) (inputs : List F) (out : Fin W → F)
    (h : load_inputs s inputs = some out) :
    (∀ i : Fin W, ((i : ℕ) < W - 1 → out i = s i + inputs.getD (i : ℕ) 0)
      ∧ ((i : ℕ) = W - 1 → out i = s i)) ∧
    addInputsGate s (fun i => inputs.getD (i : ℕ) 0) out := by
  unfold load_inputs at h
  by_cases hl : inputs.length = W - 1
  · rw [if_pos hl] at h
    have hout := Option.some.inj h
    subst hout
    constructor
    · intro i
      constructor
      · intro hi
        simp [hi]
      · intro hi
        have : ¬((i : ℕ) < W - 1) := by omega
        simp [this]
    · unfold addInputsGate
      intro i
      by_cases hi : (i : ℕ) < W - 1
      · simp only [if_pos hi]
        ring
      · simp only [if_neg hi]
        ring
  · rw [if_neg hl] at h
    exact absurd h (by simp)

theorem c6_absorb_adds_rate_passes_capacity_w :
    addInputsGate (W := 2) ![1, 2] (fun i => [(3 : ZMod 5)].getD (i : ℕ) 0)
      (fun i => if (i : ℕ) < 2 - 1
        then (![1, 2] : Fin 2 → ZMod 5) i + [(3 : ZMod 5)].getD (i : ℕ) 0
        else (![1, 2] : Fin 2 → ZMod 5) i) :=
  (c6_absorb_adds_rate_passes_capacity ![1, 2] [(3 : ZMod 5)] _ rfl).2

end ClaimC6

section ClaimC8

/-- C8 counterexample: the claim says an odd full-round count aborts
circuit building; in fact nothing checks evenness — with the odd count
`full_rounds = 1` the permutation region is built successfully (returns
`some`), the half split being silently truncated (`1 / 2 = 0`). -/
theorem c8_odd_full_rounds_not_aborted :
    1 % 2 = 1 ∧
    permutationRun (W := 1) [fun _ => (0 : ZMod 5)] (fun _ _ => 1) 1 0
      (fun _ => 2) = some (fun _ => 2) := by
  constructor
  · rfl
  · decide

/-- C8 (amended): the evenness of `full_rounds` is never checked; for an
odd `full_rounds` circuit building completes normally (given an adequate
constant table) and the half-round split is silently coerced by the
truncating division `full_rounds / 2`, as exhibited by the reference
round structure with `fr / 2` leading and `fr - fr / 2` trailing full
rounds. -/
theorem c8_odd_full_rounds_truncated {F : Type} [CommRing F] {W : ℕ}
    (cs : List (Fin W → F)) (mds : Fin W → Fin W → F) (fr pr : ℕ)
    (s : Fin W → F) (hodd : fr % 2 = 1) (hlen : fr + pr ≤ cs.length) :
    permutationRun cs mds fr pr s = some (refPermutation cs mds fr pr s) := by
  unfold permutationRun
  rw [if_neg (by omega),
    if_neg (fun hcon => absurd hcon.1 (by omega)),
    chipPermutation_eq_refPermutation]

theorem c8_odd_full_rounds_truncated_w :
    permutationRun (W := 1) [fun _ => (0 : ZMod 5)] (fun _ _ => 1) 1 0
      (fun _ => 2)
      = some (refPermutation [fun _ => (0 : ZMod 5)] (fun _ _ => 1) 1 0
        (fun _ => 2)) :=
  c8_odd_full_rounds_truncated [fun _ => (0 : ZMod 5)] (fun _ _ => 1) 1 0
    (fun _ => 2) rfl (by decide)

end ClaimC8

section ClaimC9

/-- C9: the copy flag at the leaf-selection row is forced to 0: the
`PUB_SELECT` gate carries the raw copy-flag cell itself as a constraint,
so any satisfying assignment with leaf selection enabled has `copy = 0`
there, and `load_leaves` indeed assigns that cell to 0 — level 0 can never
be a copy (padding) level. -/
theorem c9_leaf_row_copy_zero {F : Type} [CommRing F] {I : ℕ} :
    (∀ (pubCol : ℕ → F) (leftC rightC : Fin I → F),
      (load_leaves pubCol leftC rightC).copyFlagAt2 = 0) ∧
    (∀ (leftV rightV hashV : Fin I → F) (index copy : F),
      pubSelectGate leftV rightV hashV index copy → copy = 0) := by
  constructor
  · intro _ _ _
    rfl
  · intro _ _ _ _ _ hg
    exact hg.2.1

theorem c9_leaf_row_copy_zero_w : (0 : ZMod 5) = 0 :=
  (c9_leaf_row_copy_zero (F := ZMod 5) (I := 1)).2 (fun _ => 0) (fun _ => 0)
    (fun _ => 0) 0 0 (by unfold pubSelectGate; decide)

end ClaimC9

section ClaimC10

/-- C10: for every valid call, `load_path` returns `left[m]` as the root,
assigns both value slots of the last level (rows `3m` and `3m+1`) as copies
of `left[m]` — the caller-supplied `right[m]` is never placed in the region
— and assigns the copy flag of the final row `3m+2` to the constant 1
regardless of the caller-supplied copy vector. -/
theorem c10_load_path_root_rows {F : Type} [CommRing F] {I : ℕ}
    (pubCol : ℕ → F) (left right hash : List (Fin I → F)) (copy : List F)
    (m n : ℕ) (_hm : 1 ≤ m) (hr : m + 1 = right.length)
    (hl : m + 1 = left.length) (hc : m + 1 = copy.length)
    (hh : m = hash.length) (hn : n ≤ m) :
    (load_path pubCol left right hash copy m n).map Prod.fst
        = some (left.getD m zeroNode) ∧
    (∀ j, (load_path pubCol left right hash copy m n).map
        (fun p => p.2.valueAt j (3 * m))
      = some (some (left.getD m zeroNode j))) ∧
    (∀ j, (load_path pubCol left right hash copy m n).map
        (fun p => p.2.valueAt j (3 * m + 1))
      = some (some (left.getD m zeroNode j))) ∧
    (load_path pubCol left right hash copy m n).map
        (fun p => p.2.copyFlagAt (3 * m + 2)) = some (some 1) ∧
    (∀ right' : List (Fin I → F), m + 1 = right'.length →
      (∀ i, i < m → right'.getD i zeroNode = right.getD i zeroNode) →
      load_path pubCol left right' hash copy m n
        = load_path pubCol left right hash copy m n) ∧
    (∀ copy' : List F, m + 1 = copy'.length →
      (load_path pubCol left right hash copy' m n).map
        (fun p => p.2.copyFlagAt (3 * m + 2)) = some (some 1)) := by
  have hg : m + 1 = right.length ∧ m + 1 = left.length ∧ m + 1 = copy.length
      ∧ m = hash.length ∧ n ≤ m := ⟨hr, hl, hc, hh, hn⟩
  refine ⟨?_, ?_, ?_, ?_, ?_, ?_⟩
  · unfold load_path
    rw [if_pos hg]
    rfl
  · intro j
    unfold load_path
    rw [if_pos hg]
    simp only [Option.map_some']
    rw [if_neg (by omega)]
    simp
  · intro j
    unfold load_path
    rw [if_pos hg]
    simp only [Option.map_some']
    rw [if_neg (by omega), if_neg (by omega)]
    simp
  · unfold load_path
    rw [if_pos hg]
    simp only [Option.map_some']
    rw [if_neg (by omega : ¬((3 * m + 2) % 3 = 2 ∧ (3 * m + 2) / 3 < m))]
    simp
  · intro right' hr' hagree
    have hg' : m + 1 = right'.length ∧ m + 1 = left.length ∧ m + 1 = copy.length
        ∧ m = hash.length ∧ n ≤ m := ⟨hr', hl, hc, hh, hn⟩
    unfold load_path
    rw [if_pos hg, if_pos hg']
    refine congrArg some (congrArg _ ?_)
    congr 1
    funext j row
    by_cases hrow : row / 3 < m
    · rw [if_pos hrow, if_pos hrow]
      by_cases h0 : row % 3 = 0
      · rw [if_pos h0, if_pos h0]
      · rw [if_neg h0, if_neg h0]
        by_cases h1 : row % 3 = 1
        · rw [if_pos h1, if_pos h1, hagree (row / 3) hrow]
        · rw [if_neg h1, if_neg h1]
    · rw [if_neg hrow, if_neg hrow]
  · intro copy' hc'
    have hg' : m + 1 = right.length ∧ m + 1 = left.length ∧ m + 1 = copy'.length
        ∧ m = hash.length ∧ n ≤ m := ⟨hr, hl, hc', hh, hn⟩
    unfold load_path
    rw [if_pos hg']
    simp only [Option.map_some']
    rw [if_neg (by omega : ¬((3 * m + 2) % 3 = 2 ∧ (3 * m + 2) / 3 < m))]
    simp

theorem c10_load_path_root_rows_w :
    (load_path (I := 1) (fun _ => (0 : ZMod 5))
        [fun _ => 3, fun _ => 4] [fun _ => 5, fun _ => 6] [fun _ => 7]
        [0, 0] 1 0).map Prod.fst
      = some ([fun _ => 3, fun _ => (4 : ZMod 5)].getD 1 zeroNode) :=
  (c10_load_path_root_rows (fun _ => (0 : ZMod 5))
    [fun _ => 3, fun _ => 4] [fun _ => 5, fun _ => 6] [fun _ => 7]
    [0, 0] 1 0 (by omega) (by decide) (by decide) (by decide) (by decide)
    (by omega)).1

end ClaimC10

section ClaimC4

/-- C4: `load_path` does abort construction on mismatched lengths, but the
claim that `MerklePathCircuit::synthesize` satisfies those preconditions is
wrong: both node-building loops push a hash node, so `hash_nodes` has
length `M + 1` while `load_path` asserts `hash.len() == m = M` — every
composition-layer construction aborts. -/
theorem c4_synthesize_violates_load_path_length {F : Type} [CommRing F]
    {I : ℕ} (lv rv hv : ℕ → Fin I → F) (n M : ℕ) (hn : n ≤ M) :
    (synthLeftNodes lv n M).length = M + 1 ∧
    (synthRightNodes rv n M).length = M + 1 ∧
    (synthHashNodes hv n M).length = M + 1 ∧
    ∀ (pubCol : ℕ → F) (copy : List F),
      load_path pubCol (synthLeftNodes lv n M) (synthRightNodes rv n M)
        (synthHashNodes hv n M) copy M n = none := by
  have hlen1 : (synthLeftNodes lv n M).length = M + 1 := by
    simp only [synthLeftNodes, List.length_append, List.length_map,
      List.length_range, List.length_range']
    omega
  have hlen2 : (synthRightNodes rv n M).length = M + 1 := by
    simp only [synthRightNodes, List.length_append, List.length_map,
      List.length_range, List.length_range']
    omega
  have hlen3 : (synthHashNodes hv n M).length = M + 1 := by
    simp only [synthHashNodes, List.length_append, List.length_map,
      List.length_range, List.length_range']
    omega
  refine ⟨hlen1, hlen2, hlen3, ?_⟩
  intro pubCol copy
  unfold load_path
  rw [if_neg ?_]
  intro hcon
  have hbad := hcon.2.2.2.1
  rw [hlen3] at hbad
  omega

theorem c4_synthesize_violates_load_path_length_w :
    load_path (fun _ => (0 : ZMod 5))
        (synthLeftNodes (I := 1) (fun _ _ => 0) 0 1)
        (synthRightNodes (fun _ _ => 0) 0 1)
        (synthHashNodes (fun _ _ => 0) 0 1) [] 1 0 = none :=
  (c4_synthesize_violates_load_path_length (I := 1) (fun _ _ => 0)
    (fun _ _ => 0) (fun _ _ => 0) 0 1 (by omega)).2.2.2 (fun _ => 0) []

end ClaimC4

section ClaimC7

/-- C7: the public inputs consumed by the Merkle circuit are, in fixed
order, the selected leaf at instance rows `0..I`, the per-level index flags
at rows `I..I+M`, and the root at rows `I+M..I+M+I`; the root is bound to
its rows by direct equality (`constrain_instance`), not through any
additive or squeeze relation. -/
theorem c7_public_input_layout (Iw M : ℕ) (hM : 1 ≤ M) :
    merkleSynthPubRefs Iw M
      = ((List.range Iw).map
          (fun j => (j, PubRole.leafSlot j, PubBinding.copyIn)))
        ++ ((List.range M).map
          (fun i => (Iw + i, PubRole.idxSlot i, PubBinding.copyIn)))
        ++ ((List.range Iw).map
          (fun j => (Iw + M + j, PubRole.rootSlot j, PubBinding.equalOut))) := by
  obtain ⟨k, rfl⟩ : ∃ k, M = k + 1 := ⟨M - 1, by omega⟩
  have hrange : List.range (k + 1) = 0 :: List.range' 1 k := by
    rw [List.range_eq_range', List.range'_succ]
  have hidx : (List.range (k + 1)).map
        (fun i => (Iw + i, PubRole.idxSlot i, PubBinding.copyIn))
      = (Iw + 0, PubRole.idxSlot 0, PubBinding.copyIn)
        :: (List.range' 1 k).map
          (fun i => (Iw + i, PubRole.idxSlot i, PubBinding.copyIn)) := by
    rw [hrange, List.map_cons]
  rw [hidx]
  unfold merkleSynthPubRefs loadLeavesPubRefs loadPathPubRefs exposePublicPubRefs
  simp [List.append_assoc]
  intro a _
  omega

theorem c7_public_input_layout_w :
    merkleSynthPubRefs 2 2
      = ((List.range 2).map
          (fun j => (j, PubRole.leafSlot j, PubBinding.copyIn)))
        ++ ((List.range 2).map
          (fun i => (2 + i, PubRole.idxSlot i, PubBinding.copyIn)))
        ++ ((List.range 2).map
          (fun j => (2 + 2 + j, PubRole.rootSlot j, PubBinding.equalOut))) :=
  c7_public_input_layout 2 2 (by omega)

end ClaimC7

section ChunkLemmas

variable {F : Type}

lemma chunks_nil (size : ℕ) : chunks (F := F) size [] = [] := by
  simp [chunks]

lemma chunks_cons (size : ℕ) (x : F) (rest : List F) (hs : size ≠ 0) :
    chunks size (x :: rest)
      = (x :: rest).take size :: chunks size ((x :: rest).drop size) := by
  rw [chunks]
  simp [hs]

/-- When the input length is an exact multiple of the (positive) chunk
size, `chunks` yields the `k`-th slice at index `k`. -/
lemma chunks_exact (size : ℕ) (hs : 0 < size) :
    ∀ (q : ℕ) (xs : List F), xs.length = q * size →
      chunks size xs
        = (List.range q).map (fun k => (xs.drop (k * size)).take size) := by
  intro q
  induction q with
  | zero =>
      intro xs hx
      have hxe : xs = [] := List.eq_nil_of_length_eq_zero (by simpa using hx)
      subst hxe
      simp [chunks_nil]
  | succ k ih =>
      intro xs hx
      have hlen : xs.length = k * size + size := by rw [hx]; ring
      obtain ⟨x, rest, rfl⟩ : ∃ y ys, xs = y :: ys := by
        cases xs with
        | nil => exfalso; simp at hlen; omega
        | cons y ys => exact ⟨y, ys, rfl⟩
      rw [chunks_cons _ _ _ (by omega)]
      have hdrop : ((x :: rest).drop size).length = k * size := by
        simp only [List.length_drop]
        omega
      rw [ih _ hdrop]
      rw [List.range_succ_eq_map, List.map_cons, List.map_map]
      congr 1
      · simp
      · refine List.map_congr_left fun a _ => ?_
        simp only [Function.comp_apply, List.drop_drop]
        congr 2
        rw [Nat.succ_mul]
        omega

/-- Reading a prefix of a list positionally. -/
lemma take_eq_range_map_getD [CommRing F] (l : List F) (size : ℕ) (h : size ≤ l.length) :
    l.take size = (List.range size).map (fun k => l.getD k 0) := by
  apply List.ext_getElem
  · simp [h]
  · intro i h1 h2
    simp only [List.getElem_take, List.getElem_map, List.getElem_range]
    rw [List.getD_eq_getElem]

end ChunkLemmas

section ClaimC5

/-- C5 counterexample: the claim (and the spec) describe the squeeze phase
as "repeatedly permuting and reading state[0]" when the digest is wider
than one field element; the reference hash instead reads the digest as the
first `element_size` slots of the final state with no further
permutations.  With width 3, element size 2, one partial round, zero
constants, identity matrix and capacity 1 over `ZMod 7`, input `[2, 3]`
hashes to `[4, 3]`, while the claimed squeeze algorithm would output
`[4, 2]`. -/
theorem c5_repeated_squeeze_claim_false :
    hashDigest (W := 3) 2 ([] : List (ZMod 7)) 1 [fun _ => 0]
        (fun i j => if i = j then 1 else 0) 0 1 [2, 3]
      ≠ claimedSqueezeHash (W := 3) 2 ([] : List (ZMod 7)) 1 [fun _ => 0]
        (fun i j => if i = j then 1 else 0) 0 1 [2, 3] := by
  have hchunks : chunks 2 [(2 : ZMod 7), 3] = [[2, 3]] := by
    rw [chunks_cons 2 2 [3] (by omega)]
    simp [chunks_nil]
  unfold hashDigest claimedSqueezeHash
  rw [hchunks]
  decide

/-- C5 (amended): for every input sequence whose length is a positive
multiple of the element size, the variable-length hash splits the input
into element-size chunks, pads each chunk with the fixed pad vector,
absorbs and permutes once per chunk, and reads the digest directly as the
first `element_size` slots of the final state (no extra squeeze
permutations). -/
theorem c5_variable_hash_amended {F : Type} [CommRing F] {W : ℕ}
    (size : ℕ) (pad : List F) (cap : ℕ) (cs : List (Fin W → F))
    (mds : Fin W → Fin W → F) (fr pr : ℕ) (inputs : List F)
    (hs : 0 < size) (hmod : inputs.length % size = 0)
    (_hpos : 0 < inputs.length) (hW : size ≤ W) :
    hashDigest size pad cap cs mds fr pr inputs
      = specVarHash size pad cap cs mds fr pr inputs := by
  have hlen : inputs.length = (inputs.length / size) * size :=
    (Nat.div_mul_cancel (Nat.dvd_of_mod_eq_zero hmod)).symm
  unfold hashDigest specVarHash
  rw [chunks_exact size hs (inputs.length / size) inputs hlen]
  rw [List.map_map, List.foldl_map]
  rw [take_eq_range_map_getD _ size (by simp [hW])]
  rfl

theorem c5_variable_hash_amended_w :
    hashDigest (W := 3) 2 ([] : List (ZMod 7)) 1 [fun _ => 0]
        (fun i j => if i = j then 1 else 0) 0 1 [2, 3]
      = specVarHash (W := 3) 2 ([] : List (ZMod 7)) 1 [fun _ => 0]
        (fun i j => if i = j then 1 else 0) 0 1 [2, 3] :=
  c5_variable_hash_amended (W := 3) 2 [] 1 [fun _ => 0]
    (fun i j => if i = j then 1 else 0) 0 1 [2, 3]
    (by omega) (by decide) (by decide) (by omega)

end ClaimC5

end CircuitSamples
